import Mathlib

/-!
Verification of the conversation-archive explorer (src/src/App.tsx and
src/src/components/DeepSeekPanel.tsx).

The TypeScript data comes from untyped JSON, so every field the code guards
against being absent is modelled with `Option`.  The mapping from node ids to
nodes is an association list looked up with `List.lookup`, matching a JS object
used as a dictionary.  The `while (currentNodeId)` loops of the source walk
parent links and may diverge on cyclic inputs, so each loop is embedded with an
explicit fuel argument; a result of `none` means the fuel was exhausted before
the loop finished, and `some r` means the loop finished with result `r`.
JS truthiness of the string-typed loop variable is modelled exactly: the empty
string and null/undefined are falsy, every other string is truthy.
-/

/-- Model of the `Message.author` object (`{ role: string }`). -/
structure Author where
  role : String
deriving DecidableEq

/-- Model of the `Message.content` object.  `parts` is `none` when the JSON
field is absent or not an array (the code checks `Array.isArray`). -/
structure Content where
  content_type : String
  parts : Option (List String)
deriving DecidableEq

/-- Model of a chat `Message`.  `author` and `content` are `none` when the
corresponding JSON field is absent, which the source code guards against. -/
structure Message where
  id : String
  author : Option Author
  content : Option Content
deriving DecidableEq

/-- Model of a `ConversationNode` of the message tree.  `message` may be
absent; `parent` is a node id or null. -/
structure ConversationNode where
  id : String
  message : Option Message
  parent : Option String
  children : List String
deriving DecidableEq

/-- Model of a `Conversation` record: `mapping` is the id-to-node dictionary,
`current_node` the tip of the displayed branch.  `create_time` is an integer
timestamp of ambiguous unit. -/
structure Conversation where
  id : String
  title : String
  create_time : Int
  mapping : List (String × ConversationNode)
  current_node : String
deriving DecidableEq

/-- Character-list version of JS `String.prototype.startsWith` at offset 0:
`startsWithCh needle hay` is true when `needle` begins `hay`. -/
def startsWithCh : List Char → List Char → Bool
  | [], _ => true
  | _ :: _, [] => false
  | a :: as, b :: bs => a == b && startsWithCh as bs

/-- Character-list version of JS `String.prototype.includes`:
`occursCh needle hay` is true when `needle` occurs contiguously in `hay`. -/
def occursCh (needle : List Char) : List Char → Bool
  | [] => needle.isEmpty
  | c :: t => startsWithCh needle (c :: t) || occursCh needle t

/-- Model of JS `hay.includes(needle)` on strings. -/
def strIncludes (hay needle : String) : Bool :=
  occursCh needle.data hay.data

/-- Lower-casing of a character list, modelling JS `toLowerCase` on the
ASCII-range inputs this program uses. -/
def toLowerList (s : List Char) : List Char :=
  s.map Char.toLower

/-- Model of JS `String.prototype.toLowerCase` (ASCII range). -/
def toLowerStr (s : String) : String :=
  String.mk (toLowerList s.data)

/-- JS truthiness of the loop variable `currentNodeId : string | null |
undefined`: null/undefined and the empty string are falsy. -/
def idTruthy : Option String → Bool
  | none => false
  | some s => decide (s ≠ "")

/-- The condition of `handleSelectConversation`'s history loop (App.tsx:205):
`currentNode.message && currentNode.message.content &&
currentNode.message.content.parts && currentNode.message.content.parts.length > 0`.
Note the source does not look at `author` here. -/
def historyCondMsg (msg : Message) : Bool :=
  match msg.content with
  | none => false
  | some content =>
    match content.parts with
    | none => false
    | some parts => decide (parts.length > 0)

/-- One body step of the history loop: `history.unshift(currentNode.message)`
guarded by the well-formedness condition of App.tsx:205.  The accumulator is
kept root-first, so a JS `unshift` is a cons. -/
def historyStep (node : ConversationNode) (history : List Message) : List Message :=
  match node.message with
  | none => history
  | some msg => if historyCondMsg msg then msg :: history else history

/-- Fuel-indexed embedding of the `while (currentNodeId)` loop of
`handleSelectConversation` (App.tsx:202-209).  `none` means the fuel ran out,
`some history` that the loop exited with the accumulated history. -/
def reconstructAux (m : List (String × ConversationNode)) :
    Nat → Option String → List Message → Option (List Message)
  | _, none, history => some history
  | 0, some s, history => if s = "" then some history else none
  | Nat.succ fuel, some s, history =>
    if s = "" then some history
    else
      match m.lookup s with
      | none => some history
      | some node => reconstructAux m fuel node.parent (historyStep node history)

/-- The history build of `handleSelectConversation` (App.tsx:199-211): walk
parent links from `current_node`, collecting well-formed messages root-first. -/
def reconstruct (c : Conversation) (fuel : Nat) : Option (List Message) :=
  reconstructAux c.mapping fuel (some c.current_node) []

/-- A terminating parent chain of the mapping `m`: `Chain m cur nodes` says
that starting from the id `cur` the walk visits exactly the nodes in `nodes`
(tip first) and ends at a null parent. -/
inductive Chain (m : List (String × ConversationNode)) : Option String → List ConversationNode → Prop
  | nil : Chain m none []
  | cons {s : String} {node : ConversationNode} {rest : List ConversationNode} :
      s ≠ "" → m.lookup s = some node → Chain m node.parent rest →
      Chain m (some s) (node :: rest)

/-- The message the history loop keeps for a node, if any: the node's message
when it has content with a non-empty parts array (author is not examined). -/
def includedMsg (node : ConversationNode) : Option Message :=
  match node.message with
  | none => none
  | some msg => if historyCondMsg msg then some msg else none

theorem historyStep_eq (node : ConversationNode) (history : List Message) :
    historyStep node history = ((includedMsg node).toList) ++ history := by
  unfold historyStep includedMsg
  cases node.message with
  | none => rfl
  | some msg =>
    by_cases h : historyCondMsg msg = true
    · simp [h]
    · simp [h]

/-- On a terminating chain with enough fuel, the history loop returns the kept
messages of the visited nodes, reversed (root first), in front of the
accumulator. -/
theorem reconstructAux_chain {m : List (String × ConversationNode)}
    {cur : Option String} {nodes : List ConversationNode}
    (hchain : Chain m cur nodes) :
    ∀ fuel history, nodes.length ≤ fuel →
      reconstructAux m fuel cur history =
        some ((nodes.filterMap includedMsg).reverse ++ history) := by
  induction hchain with
  | nil =>
    intro fuel history _
    cases fuel <;> simp [reconstructAux]
  | @cons s node rest hs hlook _ ih =>
    intro fuel history hfuel
    cases fuel with
    | zero => simp at hfuel
    | succ fuel =>
      have hfuel' : rest.length ≤ fuel := by simp at hfuel; omega
      simp only [reconstructAux, if_neg hs, hlook]
      rw [historyStep_eq, List.filterMap_cons]
      cases h : includedMsg node with
      | none =>
        simp only [h, Option.toList_none, List.nil_append]
        exact ih fuel history hfuel'
      | some msg =>
        simp only [h, Option.toList_some, List.singleton_append]
        rw [ih fuel (msg :: history) hfuel']
        simp [List.reverse_cons]

/-- Per-node well-formedness in the spec's sense for §4.3: the node has a
message with an author, content, and at least one content part. -/
def nodeWellFormed (node : ConversationNode) : Bool :=
  match node.message with
  | none => false
  | some msg =>
    match msg.author with
    | none => false
    | some _ => historyCondMsg msg

theorem includedMsg_of_wellFormed {node : ConversationNode}
    (h : nodeWellFormed node = true) : includedMsg node = node.message := by
  unfold nodeWellFormed at h
  unfold includedMsg
  cases hm : node.message with
  | none => simp [hm] at h
  | some msg =>
    rw [hm] at h
    cases ha : msg.author with
    | none => simp [ha] at h
    | some a => simp [ha] at h; simp [h]

theorem includedMsg_eq_some {node : ConversationNode} {msg : Message} :
    includedMsg node = some msg ↔ node.message = some msg ∧ historyCondMsg msg = true := by
  cases hm : node.message with
  | none => simp [includedMsg, hm]
  | some m' =>
    unfold includedMsg
    rw [hm]
    show (if historyCondMsg m' = true then some m' else none) = some msg ↔
      some m' = some msg ∧ historyCondMsg msg = true
    by_cases h : historyCondMsg m' = true
    · rw [if_pos h]
      constructor
      · intro hc
        have hx : m' = msg := by injection hc
        subst hx
        exact ⟨rfl, h⟩
      · exact fun hp => hp.1
    · rw [if_neg h]
      constructor
      · intro hc
        exact Option.noConfusion hc
      · intro hp
        have hx : m' = msg := by injection hp.1
        subst hx
        exact absurd hp.2 h

theorem filterMap_includedMsg_of_wf : ∀ (nodes : List ConversationNode),
    (∀ node ∈ nodes, nodeWellFormed node = true) →
    nodes.filterMap includedMsg = nodes.filterMap ConversationNode.message ∧
    (nodes.filterMap ConversationNode.message).length = nodes.length := by
  intro nodes
  induction nodes with
  | nil => simp
  | cons n t ih =>
    intro h
    have hn := h n (by simp)
    have ht := ih (fun x hx => h x (by simp [hx]))
    have hin : includedMsg n = n.message := includedMsg_of_wellFormed hn
    cases hm : n.message with
    | none =>
      unfold nodeWellFormed at hn
      rw [hm] at hn
      simp at hn
    | some msg =>
      constructor
      · simp only [List.filterMap_cons, hin, hm, ht.1]
      · simp only [List.filterMap_cons, hm, List.length_cons, ht.2]

/-- C1: for a conversation whose parent chain from `current_node` has depth N
with all N nodes well-formed (author, content, non-empty parts), the history
build of `handleSelectConversation` returns exactly N messages, and they are
the chain's messages in root-to-tip order (the reverse of the tip-first walk
order). -/
theorem claim1_reconstruct_depth (c : Conversation) (nodes : List ConversationNode) (fuel : Nat)
    (hchain : Chain c.mapping (some c.current_node) nodes)
    (hwf : ∀ node ∈ nodes, nodeWellFormed node = true)
    (hfuel : nodes.length ≤ fuel) :
    reconstruct c fuel = some ((nodes.filterMap ConversationNode.message).reverse) ∧
    (nodes.filterMap ConversationNode.message).length = nodes.length := by
  obtain ⟨heq, hlen⟩ := filterMap_includedMsg_of_wf nodes hwf
  refine ⟨?_, hlen⟩
  unfold reconstruct
  rw [reconstructAux_chain hchain fuel [] hfuel, heq]
  simp

/-- A well-formed root message used by concrete test conversations. -/
def msgRoot : Message :=
  { id := "m1", author := some { role := "user" },
    content := some { content_type := "text", parts := some ["hej"] } }

/-- A well-formed tip message used by concrete test conversations. -/
def msgTip : Message :=
  { id := "m2", author := some { role := "assistant" },
    content := some { content_type := "text", parts := some ["svar"] } }

/-- Root node of the two-node test conversation. -/
def nodeRoot : ConversationNode :=
  { id := "a", message := some msgRoot, parent := none, children := ["b"] }

/-- Tip node of the two-node test conversation. -/
def nodeTip : ConversationNode :=
  { id := "b", message := some msgTip, parent := some "a", children := [] }

/-- A two-node, all-well-formed test conversation with `current_node` at the
tip. -/
def convTwo : Conversation :=
  { id := "c1", title := "Samtal", create_time := 1700000000,
    mapping := [("a", nodeRoot), ("b", nodeTip)], current_node := "b" }

theorem claim1_witness :
    reconstruct convTwo 2 = some (([nodeTip, nodeRoot].filterMap ConversationNode.message).reverse) ∧
    ([nodeTip, nodeRoot].filterMap ConversationNode.message).length = [nodeTip, nodeRoot].length := by
  have hchain : Chain convTwo.mapping (some convTwo.current_node) [nodeTip, nodeRoot] := by
    refine Chain.cons (by decide) (by decide) ?_
    refine Chain.cons (by decide) (by decide) ?_
    exact Chain.nil
  exact claim1_reconstruct_depth convTwo [nodeTip, nodeRoot] 2 hchain (by decide) (by decide)

/-- A message whose `author` field is absent but whose content has a non-empty
parts array. -/
def msgNoAuthor : Message :=
  { id := "m", author := none,
    content := some { content_type := "text", parts := some ["hej"] } }

/-- A root node carrying `msgNoAuthor`. -/
def nodeNoAuthor : ConversationNode :=
  { id := "a", message := some msgNoAuthor, parent := none, children := [] }

/-- A one-node conversation whose only message lacks an author. -/
def convNoAuthor : Conversation :=
  { id := "c", title := "t", create_time := 0,
    mapping := [("a", nodeNoAuthor)], current_node := "a" }

/-- C6 counterexample: the claim says a message lacking an author is never
included, but the history build of App.tsx:205 never inspects `author`: on a
one-node conversation whose message has no author (and non-empty parts) the
reconstruction returns that message. -/
theorem claim6_counterexample :
    msgNoAuthor.author = none ∧ reconstruct convNoAuthor 2 = some [msgNoAuthor] := by
  decide

/-- C6 (amended): a node's message appears in the reconstruction's output iff
the message is present and has content with at least one content part; the
author field is not examined (a message lacking an author is still included). -/
theorem claim6_membership_amended (c : Conversation) (nodes : List ConversationNode)
    (fuel : Nat) (hchain : Chain c.mapping (some c.current_node) nodes)
    (hfuel : nodes.length ≤ fuel) :
    ∃ msgs, reconstruct c fuel = some msgs ∧
      ∀ msg : Message, msg ∈ msgs ↔
        ∃ node ∈ nodes, node.message = some msg ∧ historyCondMsg msg = true := by
  refine ⟨_, by unfold reconstruct; rw [reconstructAux_chain hchain fuel [] hfuel], ?_⟩
  intro msg
  rw [List.append_nil, List.mem_reverse, List.mem_filterMap]
  constructor
  · rintro ⟨node, hmem, hinc⟩
    exact ⟨node, hmem, includedMsg_eq_some.mp hinc⟩
  · rintro ⟨node, hmem, hrest⟩
    exact ⟨node, hmem, includedMsg_eq_some.mpr hrest⟩

theorem claim6_witness :
    ∃ msgs, reconstruct convNoAuthor 1 = some msgs ∧
      ∀ msg : Message, msg ∈ msgs ↔
        ∃ node ∈ [nodeNoAuthor], node.message = some msg ∧ historyCondMsg msg = true := by
  have hchain : Chain convNoAuthor.mapping (some convNoAuthor.current_node) [nodeNoAuthor] := by
    refine Chain.cons (by decide) (by decide) ?_
    exact Chain.nil
  exact claim6_membership_amended convNoAuthor [nodeNoAuthor] 1 hchain (by decide)

/-- The name detection of `getAssistantFromConversation` applied to already
lower-cased text: `includes('lester')`, then `'osho'`, then `'neville'`
(App.tsx:73-75 and 96-98). -/
def assistantNameOfText (text : String) : Option String :=
  if strIncludes text "lester" then some "Lester"
  else if strIncludes text "osho" then some "Osho"
  else if strIncludes text "neville" then some "Neville"
  else none

/-- Model of `parts.join(' ')`. -/
def joinSpace (parts : List String) : String :=
  String.intercalate " " parts

/-- Fuel-indexed embedding of the message walk of
`getAssistantFromConversation` (App.tsx:82-102).  The loop runs while
`currentNodeId && checkedMessages < MAX_MESSAGES_TO_CHECK` with the maximum at
5; a missing node breaks out of the loop and the function returns null;
messages missing author, content or an array `parts` are stepped over without
counting; an assistant message is counted and its joined, lower-cased text is
matched against the three known names. -/
def getAssistantAux (m : List (String × ConversationNode)) :
    Nat → Option String → Nat → Option (Option String)
  | _, none, _ => some none
  | 0, some s, checked => if s = "" ∨ 5 ≤ checked then some none else none
  | Nat.succ fuel, some s, checked =>
    if s = "" ∨ 5 ≤ checked then some none
    else
      match m.lookup s with
      | none => some none
      | some node =>
        match node.message with
        | none => getAssistantAux m fuel node.parent checked
        | some msg =>
          match msg.author with
          | none => getAssistantAux m fuel node.parent checked
          | some author =>
            match msg.content with
            | none => getAssistantAux m fuel node.parent checked
            | some content =>
              match content.parts with
              | none => getAssistantAux m fuel node.parent checked
              | some parts =>
                if author.role = "assistant" then
                  match assistantNameOfText (toLowerStr (joinSpace parts)) with
                  | some name => some (some name)
                  | none => getAssistantAux m fuel node.parent (checked + 1)
                else getAssistantAux m fuel node.parent checked

/-- Embedding of `getAssistantFromConversation` (App.tsx:70-105): first the
title is matched case-insensitively against the three names, then the message
walk runs from `current_node`. -/
def getAssistantFromConversation (c : Conversation) (fuel : Nat) : Option (Option String) :=
  let title := toLowerStr c.title
  if strIncludes title "lester" then some (some "Lester")
  else if strIncludes title "osho" then some (some "Osho")
  else if strIncludes title "neville" then some (some "Neville")
  else getAssistantAux c.mapping fuel (some c.current_node) 0

/-- Builds an assistant-authored message with one text part. -/
def asstMsg (idv text : String) : Message :=
  { id := idv, author := some { role := "assistant" },
    content := some { content_type := "text", parts := some [text] } }

/-- Builds a user-authored message with one text part. -/
def userMsg (idv text : String) : Message :=
  { id := idv, author := some { role := "user" },
    content := some { content_type := "text", parts := some [text] } }

/-- Builds a tree node holding a message. -/
def mkNode (idv : String) (msg : Message) (par : Option String) : ConversationNode :=
  { id := idv, message := some msg, parent := par, children := [] }

/-- Conversation with no known name in the title whose second
assistant-authored message (walking from `current_node`, with a user node in
between) mentions Neville. -/
def convSecondAssistant : Conversation :=
  { id := "c2a", title := "Samtal", create_time := 0,
    mapping :=
      [("n1", mkNode "n1" (asstMsg "m1" "Hej och god dag") (some "n2")),
       ("n2", mkNode "n2" (userMsg "m2" "En undran") (some "n3")),
       ("n3", mkNode "n3" (asstMsg "m3" "Neville Goddard skrev om detta") none)],
    current_node := "n1" }

/-- Conversation with no known name in the title where the first five
assistant-authored messages mention no known name and only the sixth mentions
Neville; a user node sits between the first two. -/
def convSixthAssistant : Conversation :=
  { id := "c2b", title := "Samtal", create_time := 0,
    mapping :=
      [("n1", mkNode "n1" (asstMsg "m1" "Svar ett") (some "n2")),
       ("n2", mkNode "n2" (userMsg "m2" "En mellanfraga") (some "n3")),
       ("n3", mkNode "n3" (asstMsg "m3" "Svar tva") (some "n4")),
       ("n4", mkNode "n4" (asstMsg "m4" "Svar tre") (some "n5")),
       ("n5", mkNode "n5" (asstMsg "m5" "Svar fyra") (some "n6")),
       ("n6", mkNode "n6" (asstMsg "m6" "Svar fem") (some "n7")),
       ("n7", mkNode "n7" (asstMsg "m7" "Neville Goddard igen") none)],
    current_node := "n1" }

/-- C2: the classifier inspects at most 5 assistant-authored messages while
walking parent links; non-assistant nodes are traversed without counting.  On
a title with no known name, a Neville mention in the 2nd assistant message (a
user node in between) is found, while a mention first appearing in the 6th
assistant message is never picked up: the walk stops after 5 checked assistant
messages and classification yields null. -/
theorem claim2_classifier_bound :
    getAssistantFromConversation convSecondAssistant 10 = some (some "Neville") ∧
    getAssistantFromConversation convSixthAssistant 10 = some none := by
  decide

/-- A message whose content lacks its parts array. -/
def msgNoParts : Message :=
  { id := "x1", author := some { role := "user" },
    content := some { content_type := "text", parts := none } }

/-- A chain node carrying `msgNoParts`, with a parent below it. -/
def nodeMalformed : ConversationNode :=
  { id := "n1", message := some msgNoParts, parent := some "n2", children := [] }

/-- An assistant message mentioning Neville, sitting below the malformed
node. -/
def msgNevilleDeep : Message := asstMsg "x2" "Neville Goddard svarar"

/-- Conversation whose current node has a message missing its parts and whose
parent is an assistant message naming Neville. -/
def convMalformedMid : Conversation :=
  { id := "c7", title := "Samtal", create_time := 0,
    mapping :=
      [("n1", nodeMalformed),
       ("n2", mkNode "n2" msgNevilleDeep none)],
    current_node := "n1" }

/-- C7: during the classifier walk, a node whose message is missing its content
parts is skipped — the walk continues from its parent with the checked-message
count unchanged — and a chain node absent from `mapping` ends the walk with the
normal no-classification result (null), not an error.  The concrete conjunct
shows the walk continuing past a parts-less node to find Neville deeper in the
chain. -/
theorem claim7_classifier_skips :
    (∀ (m : List (String × ConversationNode)) (fuel checked : Nat) (s : String)
      (node : ConversationNode) (msg : Message) (author : Author) (content : Content),
      s ≠ "" → checked < 5 → m.lookup s = some node →
      node.message = some msg → msg.author = some author →
      msg.content = some content → content.parts = none →
      getAssistantAux m (fuel + 1) (some s) checked =
        getAssistantAux m fuel node.parent checked) ∧
    (∀ (m : List (String × ConversationNode)) (fuel checked : Nat) (s : String),
      s ≠ "" → checked < 5 → m.lookup s = none →
      getAssistantAux m (fuel + 1) (some s) checked = some none) ∧
    getAssistantFromConversation convMalformedMid 10 = some (some "Neville") := by
  refine ⟨?_, ?_, by decide⟩
  · intro m fuel checked s node msg author content hs hck hlook hmsg hauth hcont hparts
    have hcond : ¬(s = "" ∨ 5 ≤ checked) := by
      push_neg
      exact ⟨hs, by omega⟩
    simp only [getAssistantAux, if_neg hcond, hlook, hmsg, hauth, hcont, hparts]
  · intro m fuel checked s hs hck hlook
    have hcond : ¬(s = "" ∨ 5 ≤ checked) := by
      push_neg
      exact ⟨hs, by omega⟩
    simp only [getAssistantAux, if_neg hcond, hlook]

theorem claim7_witness :
    getAssistantAux convMalformedMid.mapping (4 + 1) (some "n1") 0 =
      getAssistantAux convMalformedMid.mapping 4 nodeMalformed.parent 0 ∧
    getAssistantAux ([] : List (String × ConversationNode)) (3 + 1) (some "x") 0 = some none := by
  constructor
  · exact claim7_classifier_skips.1 convMalformedMid.mapping 4 0 "n1" nodeMalformed
      msgNoParts { role := "user" } { content_type := "text", parts := none }
      (by decide) (by decide) (by decide) (by decide) (by decide) (by decide) (by decide)
  · exact claim7_classifier_skips.2.1 [] 3 0 "x" (by decide) (by decide) (by decide)

/-- The `gpts` checkbox state of the App component, in its fixed declared
order Lester, Osho, Neville (App.tsx:117-121). -/
structure Gpts where
  lester : Bool
  osho : Bool
  neville : Bool
deriving DecidableEq

/-- `Object.entries(gpts).filter(([, checked]) => checked).map(([name]) =>
name)` (App.tsx:167-169): the enabled names in declared order. -/
def selectedGpts (g : Gpts) : List String :=
  (if g.lester then ["Lester"] else []) ++
  (if g.osho then ["Osho"] else []) ++
  (if g.neville then ["Neville"] else [])

/-- The GPT-filter predicate body `assistant && selectedGpts.includes(assistant)`
(App.tsx:173-174): false for an unclassifiable conversation. -/
def gptPass (sel : List String) (assistant : Option String) : Bool :=
  match assistant with
  | none => false
  | some name => sel.contains name

/-- `Array.prototype.filter` with a predicate that may run out of fuel: the
whole filter is undetermined (`none`) as soon as one predicate call is. -/
def optFilter {α : Type} (p : α → Option Bool) : List α → Option (List α)
  | [] => some []
  | x :: xs =>
    match p x with
    | none => none
    | some b =>
      match optFilter p xs with
      | none => none
      | some rest => some (if b then x :: rest else rest)

/-- Embedding of the filtering `useEffect` (App.tsx:155-180): apply the search
filter when `searchTerm` is truthy, then the GPT filter when at least one
checkbox is enabled. -/
def filterConversations (convs : List Conversation) (searchTerm : String)
    (g : Gpts) (fuel : Nat) : Option (List Conversation) :=
  let result := if searchTerm ≠ "" then
      convs.filter (fun c => strIncludes (toLowerStr c.title) (toLowerStr searchTerm))
    else convs
  let sel := selectedGpts g
  if sel.length > 0 then
    optFilter (fun c => (getAssistantFromConversation c fuel).map (gptPass sel)) result
  else some result

theorem optFilter_eq_filter {α : Type} (p : α → Option Bool) (q : α → Bool) :
    ∀ l : List α, (∀ a ∈ l, p a = some (q a)) → optFilter p l = some (l.filter q) := by
  intro l
  induction l with
  | nil => intro _; rfl
  | cons x xs ih =>
    intro h
    have hx := h x (by simp)
    have hxs := ih (fun a ha => h a (by simp [ha]))
    simp [optFilter, hx, hxs, List.filter_cons]

/-- C3: for every conversation list, search term, and checkbox state, and any
sufficient classifier fuel, the filtering effect returns exactly the
conversations that pass both active criteria — case-insensitive title
substring match when the search term is non-empty, and classified assistant in
the enabled set when that set is non-empty (an unclassifiable conversation
fails the assistant criterion) — as a `List.filter` of the input, hence
preserving input order. -/
theorem claim3_filter_exact (convs : List Conversation) (searchTerm : String)
    (g : Gpts) (fuel : Nat) (cls : Conversation → Option String)
    (h : ∀ c ∈ convs, getAssistantFromConversation c fuel = some (cls c)) :
    filterConversations convs searchTerm g fuel =
      some (convs.filter (fun c =>
        (if searchTerm = "" then true
         else strIncludes (toLowerStr c.title) (toLowerStr searchTerm)) &&
        (if (selectedGpts g).length > 0 then gptPass (selectedGpts g) (cls c) else true))) := by
  unfold filterConversations
  by_cases hsel : (selectedGpts g).length > 0
  · rw [if_pos hsel]
    by_cases hst : searchTerm = ""
    · rw [if_neg (show ¬searchTerm ≠ "" from by simp [hst])]
      rw [optFilter_eq_filter _ (fun c => gptPass (selectedGpts g) (cls c)) convs
        (fun c hc => by rw [h c hc]; rfl)]
      congr 1
      apply List.filter_congr
      intro c _
      simp [hst, hsel]
    · rw [if_pos hst]
      rw [optFilter_eq_filter _ (fun c => gptPass (selectedGpts g) (cls c)) _
        (fun c hc => by rw [h c (List.mem_of_mem_filter hc)]; rfl)]
      rw [List.filter_filter]
      congr 1
      apply List.filter_congr
      intro c _
      simp [hst, hsel, Bool.and_comm]
  · rw [if_neg hsel]
    by_cases hst : searchTerm = ""
    · rw [if_neg (show ¬searchTerm ≠ "" from by simp [hst])]
      congr 1
      symm
      rw [List.filter_eq_self]
      intro c _
      simp [hst, hsel]
    · rw [if_pos hst]
      congr 1
      apply List.filter_congr
      intro c _
      simp [hst, hsel]

/-- A conversation classifiable as Osho from its title, whose title also
matches the search term "om". -/
def convOshoSorg : Conversation :=
  { id := "w1", title := "Osho om sorg", create_time := 0,
    mapping := [], current_node := "z" }

/-- A conversation with no classifiable assistant and no search match. -/
def convAnnat : Conversation :=
  { id := "w2", title := "Annat tal", create_time := 0,
    mapping := [], current_node := "z" }

/-- Classifier table used by the filtering witness. -/
def clsW : Conversation → Option String :=
  fun c => if c.id = "w1" then some "Osho" else none

theorem claim3_witness :
    filterConversations [convOshoSorg, convAnnat] "om" ⟨false, true, false⟩ 3 =
      some (([convOshoSorg, convAnnat]).filter (fun c =>
        (if "om" = "" then true
         else strIncludes (toLowerStr c.title) (toLowerStr "om")) &&
        (if (selectedGpts ⟨false, true, false⟩).length > 0
         then gptPass (selectedGpts ⟨false, true, false⟩) (clsW c) else true))) :=
  claim3_filter_exact [convOshoSorg, convAnnat] "om" ⟨false, true, false⟩ 3 clsW (by decide)

/-- Gregorian calendar year of a day count relative to 1970-01-01, following
the standard civil-from-days conversion; models `Date.prototype.getFullYear`
for a UTC environment. -/
def yearOfDays (d : Int) : Int :=
  let z := d + 719468
  let era := z.fdiv 146097
  let doe := z - era * 146097
  let yoe := (doe - doe.fdiv 1460 + doe.fdiv 36524 - doe.fdiv 146096).fdiv 365
  let y := yoe + era * 400
  let doy := doe - (365 * yoe + yoe.fdiv 4 - yoe.fdiv 100)
  let mp := (5 * doy + 2).fdiv 153
  let m := if mp < 10 then mp + 3 else mp - 9
  if m ≤ 2 then y + 1 else y

/-- Calendar year of a timestamp given in microseconds since the epoch.  The
source works in (possibly fractional) milliseconds `ms`; representing the
value as the exact integer `us = ms * 1000` loses nothing, and the day index
`floor(ms / 86400000)` is exactly `us.fdiv 86400000000`. -/
def yearOfUs (us : Int) : Int :=
  yearOfDays (us.fdiv 86400000000)

/-- The invalid-date sentinel string of `formatDate` (App.tsx:58). -/
def jsInvalidDate : String := "Ogiltigt datum"

/-- Embedding of `formatDate` (App.tsx:40-68).  The unit normalization keeps
the source's thresholds (`1e10`, `1e12`); the normalized millisecond value is
held exactly as integer microseconds (so the seconds branch `timestamp * 1000`
becomes `* 1000 * 1000` and the microseconds branch `timestamp / 1000` is the
identity).  The rendered locale string is abstracted by the calendar year it
would display; the sentinel branch carries the source's sentinel string. -/
def formatDate (timestamp : Int) : Except String Int :=
  let timestampInUs : Int :=
    if timestamp < 10000000000 then timestamp * 1000 * 1000
    else if timestamp > 1000000000000 then timestamp
    else timestamp * 1000
  let year := yearOfUs timestampInUs
  if year < 2020 ∨ year > 2025 then Except.error jsInvalidDate
  else Except.ok year

/-- Modelled from the spec words of §4.4 for comparison with the code: values
below 1e10 are seconds and scaled to milliseconds, values above 1e12 are
microseconds and scaled down to milliseconds, values in between are already
milliseconds — expressed here in exact integer microseconds. -/
def specNormalizeUs (t : Int) : Int :=
  if t < 10000000000 then t * 1000 * 1000
  else if t > 1000000000000 then t
  else t * 1000

/-- C8: `formatDate` normalizes by the spec's magnitude thresholds and yields
the invalid-date sentinel exactly when the normalized value's calendar year
lies outside [2020, 2025]; concretely, `formatDate 1700000000`
(seconds-scale, November 2023) is a valid formatted date, while
`formatDate 1900000000` normalizes to year 2030 and yields the sentinel. -/
theorem claim8_format_date :
    (∀ t : Int, formatDate t = Except.error jsInvalidDate ↔
      (yearOfUs (specNormalizeUs t) < 2020 ∨ yearOfUs (specNormalizeUs t) > 2025)) ∧
    formatDate 1700000000 = Except.ok 2023 ∧
    formatDate 1900000000 = Except.error jsInvalidDate ∧
    yearOfUs (specNormalizeUs 1900000000) = 2030 := by
  refine ⟨?_, rfl, rfl, rfl⟩
  intro t
  show (if yearOfUs (specNormalizeUs t) < 2020 ∨ yearOfUs (specNormalizeUs t) > 2025
        then Except.error jsInvalidDate
        else Except.ok (yearOfUs (specNormalizeUs t))) = Except.error jsInvalidDate ↔ _
  by_cases h : yearOfUs (specNormalizeUs t) < 2020 ∨ yearOfUs (specNormalizeUs t) > 2025
  · simp [h]
  · simp [h]

/-- Case-insensitive matching of a literal regex piece at the head of the
input, as the JS regex engine does under the `i` flag: `lit` is given with
letters in lower case; each input character matches when its lower-casing
equals the pattern character.  Returns the rest of the input on success. -/
def stripCI : List Char → List Char → Option (List Char)
  | [], s => some s
  | _ :: _, [] => none
  | l :: ls, c :: cs => if c.toLower = l then stripCI ls cs else none

/-- The three known assistant names, in the order of the regex alternation
`(Lester|Osho|Neville)` (DeepSeekPanel.tsx:19). -/
def gptNames : List String := ["Lester", "Osho", "Neville"]

/-- The alternation `(Lester|Osho|Neville)` tried case-insensitively at the
head of `s`, returning the capture (the matched input text, in its original
case) and the remainder.  The three alternatives start with distinct letters,
so at most one can match at a position and the regex engine's backtracking
between alternatives never arises. -/
def tryNames : List String → List Char → Option (String × List Char)
  | [], _ => none
  | n :: ns, s =>
    match stripCI (toLowerList n.data) s with
    | some rest => some (String.mk (s.take n.data.length), rest)
    | none => tryNames ns s

/-- A character matched by the regex metacharacter `.` without the `s` flag:
anything but a line terminator. -/
def dotChar (c : Char) : Bool :=
  c ≠ '\n' && c ≠ '\r' && c ≠ ' ' && c ≠ ' '

/-- Attempt to match `Sammanfatta alla (Lester|Osho|Neville)-konversationer om
(.*)` (flag `i`) at the start of `s`.  On success the two captures are
returned: the assistant name as written in the input and the topic, which the
greedy `(.*)` extends to the end of the line. -/
def matchSummarizeAt (s : List Char) : Option (String × String) :=
  match stripCI "sammanfatta alla ".data s with
  | none => none
  | some s1 =>
    match tryNames gptNames s1 with
    | none => none
    | some (name, s2) =>
      match stripCI "-konversationer om ".data s2 with
      | none => none
      | some s3 => some (name, String.mk (s3.takeWhile dotChar))

/-- Leftmost search of the unanchored regex, as `String.prototype.match`
performs it: try every start position from the left. -/
def findSummarize : List Char → Option (String × String)
  | [] => none
  | c :: t =>
    match matchSummarizeAt (c :: t) with
    | some r => some r
    | none => findSummarize t

/-- The fixed usage-hint message of DeepSeekPanel.tsx:22. -/
def usageHint : String :=
  "Couldn\x27t understand the prompt. Use the format: \x27Sammanfatta alla [Lester/Osho/Neville]-konversationer om [topic]\x27"

/-- Embedding of the prompt parsing of `handlePromptSubmit`
(DeepSeekPanel.tsx:19-27): on a regex match the captures are produced, and a
failed match is rejected with the fixed usage hint. -/
def interpret (prompt : String) : Except String (String × String) :=
  match findSummarize prompt.data with
  | some r => Except.ok r
  | none => Except.error usageHint

example : interpret "Sammanfatta alla Lester-konversationer om fear" =
    Except.ok ("Lester", "fear") := by rfl

example : interpret "sammanfatta ALLA osho-KONVERSATIONER om mindfulness" =
    Except.ok ("osho", "mindfulness") := by rfl

example : interpret "Sammanfatta alla Kalle-konversationer om fear" =
    Except.error usageHint := by rfl


example : interpret "Sammanfatta alla Lester-konversationer om fear and hope" =
    Except.ok ("Lester", "fear and hope") := by rfl

theorem stripCI_sound : ∀ (lit s rest : List Char), stripCI lit s = some rest →
    ∃ s1, s = s1 ++ rest ∧ toLowerList s1 = lit := by
  intro lit
  induction lit with
  | nil =>
    intro s rest h
    refine ⟨[], ?_, rfl⟩
    have : s = rest := by simpa [stripCI] using h
    simpa using this
  | cons l ls ih =>
    intro s rest h
    cases s with
    | nil => exact absurd h (by simp [stripCI])
    | cons c cs =>
      by_cases hc : c.toLower = l
      · rw [stripCI, if_pos hc] at h
        obtain ⟨s1, hs1, hlow⟩ := ih cs rest h
        refine ⟨c :: s1, by simp [hs1], ?_⟩
        simp [toLowerList] at hlow ⊢
        exact ⟨hc, hlow⟩
      · rw [stripCI, if_neg hc] at h
        exact absurd h (by simp)

theorem stripCI_complete : ∀ (lit s post : List Char), toLowerList s = lit ++ post →
    ∃ rest, stripCI lit s = some rest ∧ toLowerList rest = post := by
  intro lit
  induction lit with
  | nil =>
    intro s post h
    exact ⟨s, rfl, by simpa using h⟩
  | cons l ls ih =>
    intro s post h
    cases s with
    | nil => simp [toLowerList] at h
    | cons c cs =>
      simp only [toLowerList, List.map_cons, List.cons_append, List.cons.injEq] at h
      obtain ⟨hc, hcs⟩ := h
      obtain ⟨rest, hrest, hlow⟩ := ih cs post hcs
      exact ⟨rest, by rw [stripCI, if_pos hc]; exact hrest, hlow⟩

theorem stripCI_fail_of_head {l : Char} {ls : List Char} : ∀ {s : List Char} {d : Char}
    {t : List Char}, toLowerList s = d :: t → l ≠ d → stripCI (l :: ls) s = none := by
  intro s d t hs hne
  cases s with
  | nil => simp [toLowerList] at hs
  | cons c cs =>
    simp only [toLowerList, List.map_cons, List.cons.injEq] at hs
    rw [stripCI, if_neg]
    rw [hs.1]
    exact fun h => hne h.symm

theorem tryNames_sound : ∀ (names : List String) (s : List Char) (cap : String) (rest : List Char),
    tryNames names s = some (cap, rest) →
    ∃ n ∈ names, ∃ s1, s = s1 ++ rest ∧ toLowerList s1 = toLowerList n.data := by
  intro names
  induction names with
  | nil =>
    intro s cap rest h
    exact absurd h (by simp [tryNames])
  | cons n ns ih =>
    intro s cap rest h
    simp only [tryNames] at h
    cases hstrip : stripCI (toLowerList n.data) s with
    | some r =>
      rw [hstrip] at h
      have hr : r = rest := by
        simp only [Option.some_inj, Prod.mk.injEq] at h
        exact h.2
      subst hr
      obtain ⟨s1, hs1, hlow⟩ := stripCI_sound _ s r hstrip
      exact ⟨n, by simp, s1, hs1, hlow⟩
    | none =>
      rw [hstrip] at h
      obtain ⟨n', hmem, s1, hs1, hlow⟩ := ih s cap rest h
      exact ⟨n', by simp [hmem], s1, hs1, hlow⟩

theorem matchSummarizeAt_sound (s : List Char) (r : String × String)
    (h : matchSummarizeAt s = some r) :
    ∃ name ∈ gptNames, ∃ post,
      toLowerList s = "sammanfatta alla ".data ++ toLowerList name.data ++
        "-konversationer om ".data ++ post := by
  unfold matchSummarizeAt at h
  cases h1 : stripCI "sammanfatta alla ".data s with
  | none => simp only [h1] at h; exact Option.noConfusion h
  | some s1 =>
    simp only [h1] at h
    cases h2 : tryNames gptNames s1 with
    | none => simp only [h2] at h; exact Option.noConfusion h
    | some p =>
      obtain ⟨cap, s2⟩ := p
      simp only [h2] at h
      cases h3 : stripCI "-konversationer om ".data s2 with
      | none => simp only [h3] at h; exact Option.noConfusion h
      | some s3 =>
        obtain ⟨a1, ha1, hl1⟩ := stripCI_sound _ s s1 h1
        obtain ⟨n, hmem, a2, ha2, hl2⟩ := tryNames_sound gptNames s1 cap s2 h2
        obtain ⟨a3, ha3, hl3⟩ := stripCI_sound _ s2 s3 h3
        refine ⟨n, hmem, toLowerList s3, ?_⟩
        rw [ha1, ha2, ha3]
        simp only [toLowerList, List.map_append, List.append_assoc] at hl1 hl2 hl3 ⊢
        rw [hl1, hl2, hl3]

theorem findSummarize_sound : ∀ (s : List Char) (r : String × String),
    findSummarize s = some r →
    ∃ pre name post, name ∈ gptNames ∧
      toLowerList s = pre ++ ("sammanfatta alla ".data ++ toLowerList name.data ++
        "-konversationer om ".data) ++ post := by
  intro s
  induction s with
  | nil => intro r h; cases h
  | cons c t ih =>
    intro r h
    simp only [findSummarize] at h
    cases hm : matchSummarizeAt (c :: t) with
    | some r' =>
      obtain ⟨name, hmem, post, heq⟩ := matchSummarizeAt_sound (c :: t) r' hm
      refine ⟨[], name, post, hmem, ?_⟩
      simpa [List.append_assoc] using heq
    | none =>
      rw [hm] at h
      obtain ⟨pre, name, post, hmem, heq⟩ := ih r h
      refine ⟨c.toLower :: pre, name, post, hmem, ?_⟩
      simp only [toLowerList] at heq ⊢
      simp [heq, List.append_assoc]

theorem matchSummarizeAt_complete (s post : List Char) (name : String)
    (hmem : name ∈ gptNames)
    (h : toLowerList s = "sammanfatta alla ".data ++ toLowerList name.data ++
      "-konversationer om ".data ++ post) :
    ∃ r, matchSummarizeAt s = some r := by
  obtain ⟨s1, hstrip1, hlow1⟩ := stripCI_complete "sammanfatta alla ".data s
    (toLowerList name.data ++ "-konversationer om ".data ++ post) h
  have hmem' : name = "Lester" ∨ name = "Osho" ∨ name = "Neville" := by
    simpa [gptNames] using hmem
  have htry : ∃ cap rest, tryNames gptNames s1 = some (cap, rest) ∧
      toLowerList rest = "-konversationer om ".data ++ post := by
    rcases hmem' with rfl | rfl | rfl
    · have hLes : toLowerList "Lester".data = "lester".data := by decide
      rw [hLes] at hlow1
      obtain ⟨rest, hstrip2, hlow2⟩ := stripCI_complete "lester".data s1 _ hlow1
      refine ⟨String.mk (s1.take "Lester".data.length), rest, ?_, hlow2⟩
      simp only [tryNames, gptNames, hLes, hstrip2]
    · have hOsh : toLowerList "Osho".data = "osho".data := by decide
      rw [hOsh] at hlow1
      have hcons : toLowerList s1 = 'o' :: ("sho".data ++ ("-konversationer om ".data ++ post)) := by
        simpa using hlow1
      have hfailL : stripCI (toLowerList "Lester".data) s1 = none := by
        rw [(by decide : toLowerList "Lester".data = "lester".data)]
        exact stripCI_fail_of_head hcons (by decide)
      obtain ⟨rest, hstrip2, hlow2⟩ := stripCI_complete "osho".data s1 _ hlow1
      refine ⟨String.mk (s1.take "Osho".data.length), rest, ?_, hlow2⟩
      simp only [tryNames, gptNames, hfailL, hOsh, hstrip2]
    · have hNev : toLowerList "Neville".data = "neville".data := by decide
      rw [hNev] at hlow1
      have hcons : toLowerList s1 = 'n' :: ("eville".data ++ ("-konversationer om ".data ++ post)) := by
        simpa using hlow1
      have hfailL : stripCI (toLowerList "Lester".data) s1 = none := by
        rw [(by decide : toLowerList "Lester".data = "lester".data)]
        exact stripCI_fail_of_head hcons (by decide)
      have hfailO : stripCI (toLowerList "Osho".data) s1 = none := by
        rw [(by decide : toLowerList "Osho".data = "osho".data)]
        exact stripCI_fail_of_head hcons (by decide)
      obtain ⟨rest, hstrip2, hlow2⟩ := stripCI_complete "neville".data s1 _ hlow1
      refine ⟨String.mk (s1.take "Neville".data.length), rest, ?_, hlow2⟩
      simp only [tryNames, gptNames, hfailL, hfailO, hNev, hstrip2]
  obtain ⟨cap, rest, htry_eq, hlowrest⟩ := htry
  obtain ⟨s3, hstrip3, _⟩ := stripCI_complete "-konversationer om ".data rest post hlowrest
  refine ⟨(cap, String.mk (s3.takeWhile dotChar)), ?_⟩
  simp only [matchSummarizeAt, hstrip1, htry_eq, hstrip3]

theorem findSummarize_complete : ∀ (pre s post : List Char) (name : String),
    name ∈ gptNames →
    toLowerList s = pre ++ ("sammanfatta alla ".data ++ toLowerList name.data ++
      "-konversationer om ".data) ++ post →
    ∃ r, findSummarize s = some r := by
  intro pre
  induction pre with
  | nil =>
    intro s post name hmem h
    have h' : toLowerList s = "sammanfatta alla ".data ++ toLowerList name.data ++
        "-konversationer om ".data ++ post := by simpa [List.append_assoc] using h
    obtain ⟨r, hr⟩ := matchSummarizeAt_complete s post name hmem h'
    cases s with
    | nil => simp [toLowerList] at h'
    | cons c t => exact ⟨r, by simp only [findSummarize, hr]⟩
  | cons d pre' ih =>
    intro s post name hmem h
    cases s with
    | nil => simp [toLowerList] at h
    | cons c t =>
      have hct : toLowerList t = pre' ++ ("sammanfatta alla ".data ++ toLowerList name.data ++
          "-konversationer om ".data) ++ post := by
        simp only [toLowerList, List.map_cons] at h
        have h2 := h
        simp [List.cons_append] at h2
        simp only [toLowerList]
        rw [h2.2]
        simp [List.append_assoc]
      obtain ⟨r, hr⟩ := ih t post name hmem hct
      cases hm : matchSummarizeAt (c :: t) with
      | some r' => exact ⟨r', by simp only [findSummarize, hm]⟩
      | none => exact ⟨r, by simp only [findSummarize, hm]; exact hr⟩

/-- Modelled from the spec's words of §4.5, amended to what the unanchored
regex requires: the fixed pattern head "Sammanfatta alla
`<Name>`-konversationer om " occurs somewhere in the input (case-insensitive),
with `<Name>` one of the three known names. -/
def specAcceptsPattern (prompt : String) : Prop :=
  ∃ pre name post, name ∈ gptNames ∧
    toLowerList prompt.data =
      pre ++ ("sammanfatta alla ".data ++ toLowerList name.data ++
        "-konversationer om ".data) ++ post

/-- C4 counterexample: the source regex (DeepSeekPanel.tsx:19) is unanchored,
so an input that contains the pattern only as a proper substring (here with a
leading "x ") is accepted with captures, not rejected with the usage hint as
the claim requires. -/
theorem claim4_counterexample :
    interpret "x Sammanfatta alla Lester-konversationer om fear" =
      Except.ok ("Lester", "fear") := by
  rfl

/-- C4 (amended): `interpret` accepts exactly the inputs that contain the
fixed pattern "Sammanfatta alla `<Name>`-konversationer om " anywhere
(case-insensitive, `<Name>` among the three known names, the topic capture
running to the end of the line); every other input is rejected with the fixed
usage-hint message, and every input is either so rejected or accepted with
captures. -/
theorem claim4_interpret_amended :
    (∀ prompt : String, specAcceptsPattern prompt ↔ ∃ r, interpret prompt = Except.ok r) ∧
    (∀ prompt : String, interpret prompt = Except.error usageHint ∨
      ∃ r, interpret prompt = Except.ok r) ∧
    interpret "Sammanfatta alla Osho-konversationer om meditation" =
      Except.ok ("Osho", "meditation") := by
  refine ⟨?_, ?_, rfl⟩
  · intro prompt
    constructor
    · rintro ⟨pre, name, post, hmem, heq⟩
      obtain ⟨r, hr⟩ := findSummarize_complete pre prompt.data post name hmem heq
      exact ⟨r, by unfold interpret; rw [hr]⟩
    · rintro ⟨r, hr⟩
      unfold interpret at hr
      cases hfind : findSummarize prompt.data with
      | none => rw [hfind] at hr; cases hr
      | some r' =>
        obtain ⟨pre, name, post, hmem, heq⟩ := findSummarize_sound prompt.data r' hfind
        exact ⟨pre, name, post, hmem, heq⟩
  · intro prompt
    unfold interpret
    cases hfind : findSummarize prompt.data with
    | none => exact Or.inl rfl
    | some r => exact Or.inr ⟨r, rfl⟩

/-- Model of `parts.join('')`. -/
def joinParts (parts : List String) : String :=
  String.join parts

/-- Fuel-indexed embedding of the per-conversation `while(currentId)` walk of
`handlePromptSubmit` (DeepSeekPanel.tsx:35-42).  The loop condition guards
`node && node.message` but then dereferences `node.message.content.parts`
without a guard, so a present message whose `content` (or whose `parts`) is
absent raises a TypeError, modelled as `Except.error ()`.  The outer `none`
still means the fuel ran out. -/
def collectAux (m : List (String × ConversationNode)) (topicLower : String) :
    Nat → Option String → String → Option (Except Unit String)
  | _, none, acc => some (Except.ok acc)
  | 0, some s, acc => if s = "" then some (Except.ok acc) else none
  | Nat.succ fuel, some s, acc =>
    if s = "" then some (Except.ok acc)
    else
      match m.lookup s with
      | none => some (Except.ok acc)
      | some node =>
        match node.message with
        | none => collectAux m topicLower fuel node.parent acc
        | some msg =>
          match msg.content with
          | none => some (Except.error ())
          | some content =>
            match content.parts with
            | none => some (Except.error ())
            | some parts =>
              collectAux m topicLower fuel node.parent
                (if strIncludes (toLowerStr (joinParts parts)) topicLower then
                  acc ++ joinParts parts ++ "\n\n"
                 else acc)

/-- A node whose message is present but has no content object. -/
def nodeNoContent : ConversationNode :=
  { id := "b1", message := some { id := "y1", author := some { role := "user" }, content := none },
    parent := none, children := [] }

/-- A mapping containing a node with a content-less message. -/
def mapNoContent : List (String × ConversationNode) := [("b1", nodeNoContent)]

/-- C9 counterexample: the claim says a node present in `mapping` whose
message is missing its content (or its parts) is skipped and the traversal
never faults, but the source dereferences `node.message.content.parts`
unguarded (DeepSeekPanel.tsx:38): on such a node the walk raises a TypeError
(modelled as `Except.error ()`). -/
theorem claim9_counterexample :
    collectAux mapNoContent "fear" 5 (some "b1") "" = some (Except.error ()) := by
  rfl

/-- C9 (amended): the walk ends without fault at a node missing from
`mapping`; a node whose `message` is absent is skipped and the walk continues
from its parent; and on a chain all of whose present messages carry content
with a parts array the traversal is total and never faults.  But a present
message missing its content (or its parts array) faults with a TypeError. -/
theorem claim9_collect_amended :
    (∀ (m : List (String × ConversationNode)) (topic : String) (fuel : Nat)
      (s : String) (node : ConversationNode) (acc : String),
      s ≠ "" → m.lookup s = some node → node.message = none →
      collectAux m topic (fuel + 1) (some s) acc = collectAux m topic fuel node.parent acc) ∧
    (∀ (m : List (String × ConversationNode)) (topic : String) (fuel : Nat)
      (s : String) (acc : String),
      s ≠ "" → m.lookup s = none →
      collectAux m topic (fuel + 1) (some s) acc = some (Except.ok acc)) ∧
    (∀ (m : List (String × ConversationNode)) (topic : String)
      (cur : Option String) (nodes : List ConversationNode),
      Chain m cur nodes →
      (∀ node ∈ nodes, ∀ msg, node.message = some msg →
        ∃ content, msg.content = some content ∧ ∃ parts, content.parts = some parts) →
      ∀ fuel acc, nodes.length ≤ fuel →
        ∃ out, collectAux m topic fuel cur acc = some (Except.ok out)) ∧
    (∀ (m : List (String × ConversationNode)) (topic : String) (fuel : Nat)
      (s : String) (node : ConversationNode) (msg : Message) (acc : String),
      s ≠ "" → m.lookup s = some node → node.message = some msg → msg.content = none →
      collectAux m topic (fuel + 1) (some s) acc = some (Except.error ())) := by
  refine ⟨?_, ?_, ?_, ?_⟩
  · intro m topic fuel s node acc hs hlook hmsg
    simp only [collectAux, if_neg hs, hlook, hmsg]
  · intro m topic fuel s acc hs hlook
    simp only [collectAux, if_neg hs, hlook]
  · intro m topic cur nodes hchain
    induction hchain with
    | nil =>
      intro _ fuel acc _
      cases fuel <;> exact ⟨acc, rfl⟩
    | @cons s node rest hs hlook _ ih =>
      intro hok fuel acc hfuel
      cases fuel with
      | zero => simp at hfuel
      | succ fuel =>
        have hfuel' : rest.length ≤ fuel := by simp at hfuel; omega
        have hok' : ∀ node ∈ rest, ∀ msg, node.message = some msg →
            ∃ content, msg.content = some content ∧ ∃ parts, content.parts = some parts :=
          fun n hn => hok n (by simp [hn])
        cases hmsg : node.message with
        | none =>
          obtain ⟨out, hout⟩ := ih hok' fuel acc hfuel'
          exact ⟨out, by simp only [collectAux, if_neg hs, hlook, hmsg]; exact hout⟩
        | some msg =>
          obtain ⟨content, hcont, parts, hparts⟩ := hok node (by simp) msg hmsg
          obtain ⟨out, hout⟩ := ih hok' fuel
            (if strIncludes (toLowerStr (joinParts parts)) topic then
              acc ++ joinParts parts ++ "\n\n" else acc) hfuel'
          exact ⟨out, by simp only [collectAux, if_neg hs, hlook, hmsg, hcont, hparts]; exact hout⟩
  · intro m topic fuel s node msg acc hs hlook hmsg hcont
    simp only [collectAux, if_neg hs, hlook, hmsg, hcont]

/-- A node with no message at all, and a one-entry mapping holding it. -/
def nodeNoMsg : ConversationNode :=
  { id := "q1", message := none, parent := none, children := [] }

/-- One-entry mapping holding the message-less node. -/
def mapNoMsg : List (String × ConversationNode) := [("q1", nodeNoMsg)]

theorem claim9_witness :
    collectAux mapNoMsg "fear" (2 + 1) (some "q1") "" = collectAux mapNoMsg "fear" 2 none "" ∧
    collectAux mapNoContent "fear" (3 + 1) (some "nope") "" = some (Except.ok "") ∧
    (∃ out, collectAux convTwo.mapping "hej" 2 (some "b") "" = some (Except.ok out)) ∧
    collectAux mapNoContent "fear" (4 + 1) (some "b1") "" = some (Except.error ()) := by
  refine ⟨?_, ?_, ?_, ?_⟩
  · exact claim9_collect_amended.1 mapNoMsg "fear" 2 "q1" nodeNoMsg ""
      (by decide) (by decide) (by decide)
  · exact claim9_collect_amended.2.1 mapNoContent "fear" 3 "nope" "" (by decide) (by decide)
  · refine claim9_collect_amended.2.2.1 convTwo.mapping "hej" (some "b") [nodeTip, nodeRoot]
      ?_ ?_ 2 "" (by decide)
    · refine Chain.cons (by decide) (by decide) ?_
      refine Chain.cons (by decide) (by decide) ?_
      exact Chain.nil
    · intro node hn msg hmsg
      simp only [List.mem_cons, List.not_mem_nil, or_false] at hn
      rcases hn with rfl | rfl
      · rw [show nodeTip.message = some msgTip from rfl] at hmsg
        injection hmsg with h
        subst h
        exact ⟨_, rfl, _, rfl⟩
      · rw [show nodeRoot.message = some msgRoot from rfl] at hmsg
        injection hmsg with h
        subst h
        exact ⟨_, rfl, _, rfl⟩
  · exact claim9_collect_amended.2.2.2 mapNoContent "fear" 4 "b1" nodeNoContent
      { id := "y1", author := some { role := "user" }, content := none } ""
      (by decide) (by decide) (by decide) (by decide)

/-- In-memory App component state relevant to loading and deleting
conversations (App.tsx:112-125). -/
structure AppState where
  conversations : List Conversation
  filteredConversations : List Conversation
  selectedConversation : Option Conversation
  chatHistory : List Message
  searchTerm : String
  syncStatus : String
deriving DecidableEq

/-- `localforage` `removeItem` on the persistent `conversationsStore`
(App.tsx:35-38, 248): drop the record stored under `key`. -/
def removeItem (store : List (String × Conversation)) (key : String) :
    List (String × Conversation) :=
  store.filter (fun kv => kv.1 ≠ key)

/-- Embedding of the load path (the fetch effect, App.tsx:127-153): the
conversation list and its filtered view are set from the freshly fetched
archive (`/conversations.json`).  No persistent store is consulted. -/
def fetchLoad (archive : List Conversation) (s : AppState) : AppState :=
  { s with conversations := archive, filteredConversations := archive }

/-- Embedding of `confirmDelete` (App.tsx:243-270) deleting `delId` titled
`delTitle`: the id's key is removed from the persistent `conversationsStore`,
the conversation is filtered out of the in-memory list, the filtered view is
recomputed with the search filter only, the selection and history are cleared
when the deleted conversation was selected, and a status message is set. -/
def confirmDelete (delId delTitle : String) (store : List (String × Conversation))
    (s : AppState) : List (String × Conversation) × AppState :=
  let store' := removeItem store delId
  let newConversations := s.conversations.filter (fun c => c.id ≠ delId)
  let cleared :=
    match s.selectedConversation with
    | some sc => decide (sc.id = delId)
    | none => false
  ( store',
    { s with
      conversations := newConversations,
      filteredConversations := newConversations.filter
        (fun c => strIncludes (toLowerStr c.title) (toLowerStr s.searchTerm)),
      selectedConversation := if cleared then none else s.selectedConversation,
      chatHistory := if cleared then [] else s.chatHistory,
      syncStatus := "Konversation \x22" ++ delTitle ++ "\x22 har tagits bort." } )

/-- The initial component state of a fresh session (App.tsx:112-124). -/
def initialAppState : AppState :=
  { conversations := [], filteredConversations := [], selectedConversation := none,
    chatHistory := [], searchTerm := "", syncStatus := "" }

/-- C5 counterexample: delete the only conversation (id "c1") during a
session — the in-memory list becomes empty — then start a fresh session and
load: the list equals the full fetched archive again, not the archive minus
the previously deleted id, because the load path never reads the persisted
removal. -/
theorem claim5_counterexample :
    (confirmDelete "c1" "Samtal" []
        (fetchLoad [convTwo] initialAppState)).2.conversations = [] ∧
    (fetchLoad [convTwo] initialAppState).conversations = [convTwo] ∧
    [convTwo] ≠ [convTwo].filter (fun c => c.id ≠ "c1") := by
  refine ⟨by decide, rfl, by decide⟩

/-- C5 (amended): `confirmDelete` removes the conversation from the in-memory
list (and its key from the persistent conversations store, into which the
source never writes any record), but the load path populates the list from the
fetched archive alone, never reading that store — so after a fresh load the
conversation list is the full fetched archive and deletions do not outlive the
session. -/
theorem claim5_delete_amended :
    (∀ (delId delTitle : String) (store : List (String × Conversation)) (s : AppState),
      (confirmDelete delId delTitle store s).2.conversations =
        s.conversations.filter (fun c => c.id ≠ delId) ∧
      (confirmDelete delId delTitle store s).1 = store.filter (fun kv => kv.1 ≠ delId)) ∧
    (∀ (archive : List Conversation) (s : AppState),
      (fetchLoad archive s).conversations = archive) := by
  exact ⟨fun delId delTitle store s => ⟨rfl, rfl⟩, fun archive s => rfl⟩

/-- The id the loop variable holds after one iteration starting at id `s`:
none when the walk is over (empty id, missing node, or null parent).  All
three source loops advance with `currentNodeId = node?.parent ?? undefined`. -/
def stepParent (m : List (String × ConversationNode)) (s : String) : Option String :=
  if s = "" then none
  else
    match m.lookup s with
    | none => none
    | some node => node.parent

/-- The id-trace of a parent-link walk: the id the loop variable holds after
`k` iterations, or none once the walk has stopped. -/
def idTrace (m : List (String × ConversationNode)) : Option String → Nat → Option String
  | cur, 0 => cur
  | none, Nat.succ _ => none
  | some s, Nat.succ k => idTrace m (stepParent m s) k

/-- The no-cycle precondition of the spec's §3 invariant: the id-trace of the
walk from `cur` never revisits a position. -/
def NoCycle (m : List (String × ConversationNode)) (cur : Option String) : Prop :=
  ∀ i j : Nat, idTrace m cur i = idTrace m cur j → (idTrace m cur i).isSome → i = j

theorem idTrace_none (m : List (String × ConversationNode)) :
    ∀ k, idTrace m none k = none
  | 0 => rfl
  | Nat.succ _ => rfl

theorem idTrace_zero (m : List (String × ConversationNode)) (cur : Option String) :
    idTrace m cur 0 = cur := by
  cases cur <;> rfl

theorem idTrace_add (m : List (String × ConversationNode)) :
    ∀ (f : Nat) (cur : Option String) (r : Nat),
      idTrace m cur (f + r) = idTrace m (idTrace m cur f) r := by
  intro f
  induction f with
  | zero =>
    intro cur r
    rw [Nat.zero_add, idTrace_zero]
  | succ f ih =>
    intro cur r
    rw [Nat.succ_add]
    cases cur with
    | none => simp [idTrace_none]
    | some s =>
      show idTrace m (stepParent m s) (f + r) = idTrace m (idTrace m (stepParent m s) f) r
      exact ih (stepParent m s) r

theorem idTrace_none_mono {m : List (String × ConversationNode)} {cur : Option String}
    {k l : Nat} (hkl : k ≤ l) (h : idTrace m cur k = none) : idTrace m cur l = none := by
  have hl : l = k + (l - k) := by omega
  rw [hl, idTrace_add, h, idTrace_none]

theorem idTrace_periodic {m : List (String × ConversationNode)} {cur : Option String}
    {i d : Nat} (hd : idTrace m cur (i + d) = idTrace m cur i) :
    ∀ t, idTrace m cur (i + t * d) = idTrace m cur i := by
  intro t
  induction t with
  | zero => simp
  | succ t ih =>
    have hshape : i + (t + 1) * d = (i + t * d) + d := by ring
    rw [hshape, idTrace_add, ih, ← idTrace_add, hd]

theorem noCycle_of_idTrace_none {m : List (String × ConversationNode)} {cur : Option String}
    (N : Nat) (h : idTrace m cur N = none) : NoCycle m cur := by
  intro i j heq hsome
  by_contra hne
  rcases Nat.lt_or_ge i j with hij | hij
  · have hd : idTrace m cur (i + (j - i)) = idTrace m cur i := by
      rw [show i + (j - i) = j by omega, heq]
    have hper := idTrace_periodic hd N
    have hmul : N ≤ N * (j - i) := by
      conv_lhs => rw [← Nat.mul_one N]
      exact Nat.mul_le_mul_left N (by omega)
    have hbig : N ≤ i + N * (j - i) := le_trans hmul (Nat.le_add_left _ _)
    have hnone := idTrace_none_mono hbig h
    rw [hper] at hnone
    rw [hnone] at hsome
    simp at hsome
  · have hij' : j < i := by omega
    have hsome' : (idTrace m cur j).isSome := by rw [← heq]; exact hsome
    have hd : idTrace m cur (j + (i - j)) = idTrace m cur j := by
      rw [show j + (i - j) = i by omega, heq.symm]
    have hper := idTrace_periodic hd N
    have hmul : N ≤ N * (i - j) := by
      conv_lhs => rw [← Nat.mul_one N]
      exact Nat.mul_le_mul_left N (by omega)
    have hbig : N ≤ j + N * (i - j) := le_trans hmul (Nat.le_add_left _ _)
    have hnone := idTrace_none_mono hbig h
    rw [hper] at hnone
    rw [hnone] at hsome'
    simp at hsome'

theorem lookup_mem_keys : ∀ {m : List (String × ConversationNode)} {s : String}
    {node : ConversationNode}, m.lookup s = some node → s ∈ m.map Prod.fst := by
  intro m
  induction m with
  | nil => intro s node h; cases h
  | cons kv t ih =>
    intro s node h
    simp only [List.lookup] at h
    by_cases hk : s = kv.1
    · simp [hk]
    · have hbe : (s == kv.1) = false := by simpa using hk
      rw [hbe] at h
      simp only [List.map_cons, List.mem_cons]
      exact Or.inr (ih h)

theorem key_of_step_isSome {m : List (String × ConversationNode)} {s : String}
    (h : (stepParent m s).isSome) : s ∈ m.map Prod.fst := by
  unfold stepParent at h
  by_cases hs : s = ""
  · rw [if_pos hs] at h; simp at h
  · rw [if_neg hs] at h
    cases hlook : m.lookup s with
    | none => rw [hlook] at h; simp at h
    | some node => exact lookup_mem_keys hlook

theorem idTrace_eventually_none {m : List (String × ConversationNode)}
    {cur : Option String} (hnc : NoCycle m cur) :
    idTrace m cur (m.length + 2) = none := by
  by_contra hne
  have hall : ∀ k, k ≤ m.length + 2 → (idTrace m cur k).isSome := by
    intro k hk
    cases hsk : idTrace m cur k with
    | none => exact absurd (idTrace_none_mono hk hsk) hne
    | some s => simp
  have hkey : ∀ i : Fin (m.length + 1), ∀ s, idTrace m cur (i.1 + 1) = some s →
      s ∈ m.map Prod.fst := by
    intro i s hs
    apply key_of_step_isSome (m := m) (s := s)
    have hpeel : idTrace m cur (i.1 + 1 + 1) = idTrace m (idTrace m cur (i.1 + 1)) 1 := by
      rw [← idTrace_add]
    have h2 : idTrace m cur (i.1 + 1 + 1) = stepParent m s := by
      rw [hpeel, hs]
      show idTrace m (stepParent m s) 0 = stepParent m s
      rw [idTrace_zero]
    have h3 := hall (i.1 + 1 + 1) (by omega)
    rw [h2] at h3
    exact h3
  let f : Fin (m.length + 1) → String :=
    fun i => (idTrace m cur (i.1 + 1)).get (hall _ (by omega))
  have hfinj : ∀ a ∈ (Finset.univ : Finset (Fin (m.length + 1))),
      ∀ b ∈ Finset.univ, f a = f b → a = b := by
    intro a _ b _ hab
    have ha := hall (a.1 + 1) (by omega)
    have hb := hall (b.1 + 1) (by omega)
    have heq : idTrace m cur (a.1 + 1) = idTrace m cur (b.1 + 1) := by
      rw [← Option.some_get ha, ← Option.some_get hb]
      exact congrArg some hab
    have := hnc (a.1 + 1) (b.1 + 1) heq ha
    exact Fin.ext (by omega)
  have hmaps : ∀ i ∈ (Finset.univ : Finset (Fin (m.length + 1))),
      f i ∈ (m.map Prod.fst).toFinset := by
    intro i _
    rw [List.mem_toFinset]
    exact hkey i (f i) (Option.some_get (hall _ (by omega))).symm
  have hcard := Finset.card_le_card_of_injOn f hmaps hfinj
  rw [Finset.card_univ, Fintype.card_fin] at hcard
  have hle : (m.map Prod.fst).toFinset.card ≤ m.length := by
    calc (m.map Prod.fst).toFinset.card ≤ (m.map Prod.fst).length := (m.map Prod.fst).toFinset_card_le
    _ = m.length := List.length_map _ _
  omega

theorem reconstructAux_isSome_of_trace_none {m : List (String × ConversationNode)} :
    ∀ (N : Nat) (cur : Option String), idTrace m cur N = none →
      ∀ fuel, N ≤ fuel → ∀ history, (reconstructAux m fuel cur history).isSome := by
  intro N
  induction N with
  | zero =>
    intro cur h fuel _ history
    rw [idTrace_zero] at h
    subst h
    cases fuel <;> simp [reconstructAux]
  | succ N ih =>
    intro cur h fuel hfuel history
    cases cur with
    | none => cases fuel <;> simp [reconstructAux]
    | some s =>
      have hstep : idTrace m (stepParent m s) N = none := h
      cases fuel with
      | zero => omega
      | succ fuel =>
        by_cases hs : s = ""
        · simp [reconstructAux, hs]
        · cases hlook : m.lookup s with
          | none => simp [reconstructAux, hs, hlook]
          | some node =>
            have hparent : idTrace m node.parent N = none := by
              have heq : stepParent m s = node.parent := by
                unfold stepParent
                rw [if_neg hs, hlook]
              rwa [heq] at hstep
            have hrec := ih node.parent hparent fuel (by omega) (historyStep node history)
            simpa [reconstructAux, hs, hlook] using hrec

theorem getAssistantAux_isSome_of_trace_none {m : List (String × ConversationNode)} :
    ∀ (N : Nat) (cur : Option String), idTrace m cur N = none →
      ∀ fuel, N ≤ fuel → ∀ checked, (getAssistantAux m fuel cur checked).isSome := by
  intro N
  induction N with
  | zero =>
    intro cur h fuel _ checked
    rw [idTrace_zero] at h
    subst h
    cases fuel <;> simp [getAssistantAux]
  | succ N ih =>
    intro cur h fuel hfuel checked
    cases cur with
    | none => cases fuel <;> simp [getAssistantAux]
    | some s =>
      have hstep : idTrace m (stepParent m s) N = none := h
      cases fuel with
      | zero => omega
      | succ fuel =>
        by_cases hcond : s = "" ∨ 5 ≤ checked
        · simp [getAssistantAux, hcond]
        · have hs : ¬s = "" := fun hx => hcond (Or.inl hx)
          cases hlook : m.lookup s with
          | none => simp only [getAssistantAux, if_neg hcond, hlook, Option.isSome_some]
          | some node =>
            have hparent : idTrace m node.parent N = none := by
              have heq : stepParent m s = node.parent := by
                unfold stepParent
                rw [if_neg hs, hlook]
              rwa [heq] at hstep
            have hrec : ∀ ck, (getAssistantAux m fuel node.parent ck).isSome :=
              fun ck => ih node.parent hparent fuel (by omega) ck
            cases hm : node.message with
            | none =>
              simp only [getAssistantAux, if_neg hcond, hlook, hm]
              exact hrec checked
            | some msg =>
              cases ha : msg.author with
              | none =>
                simp only [getAssistantAux, if_neg hcond, hlook, hm, ha]
                exact hrec checked
              | some author =>
                cases hc : msg.content with
                | none =>
                  simp only [getAssistantAux, if_neg hcond, hlook, hm, ha, hc]
                  exact hrec checked
                | some content =>
                  cases hp : content.parts with
                  | none =>
                    simp only [getAssistantAux, if_neg hcond, hlook, hm, ha, hc, hp]
                    exact hrec checked
                  | some parts =>
                    by_cases hrole : author.role = "assistant"
                    · simp only [getAssistantAux, if_neg hcond, hlook, hm, ha, hc, hp,
                        if_pos hrole]
                      cases hn : assistantNameOfText (toLowerStr (joinSpace parts)) with
                      | some name => rfl
                      | none => exact hrec (checked + 1)
                    · simp only [getAssistantAux, if_neg hcond, hlook, hm, ha, hc, hp,
                        if_neg hrole]
                      exact hrec checked

theorem collectAux_isSome_of_trace_none {m : List (String × ConversationNode)} :
    ∀ (N : Nat) (cur : Option String), idTrace m cur N = none →
      ∀ fuel, N ≤ fuel → ∀ (topic acc : String), (collectAux m topic fuel cur acc).isSome := by
  intro N
  induction N with
  | zero =>
    intro cur h fuel _ topic acc
    rw [idTrace_zero] at h
    subst h
    cases fuel <;> simp [collectAux]
  | succ N ih =>
    intro cur h fuel hfuel topic acc
    cases cur with
    | none => cases fuel <;> simp [collectAux]
    | some s =>
      have hstep : idTrace m (stepParent m s) N = none := h
      cases fuel with
      | zero => omega
      | succ fuel =>
        by_cases hs : s = ""
        · simp [collectAux, hs]
        · cases hlook : m.lookup s with
          | none => simp [collectAux, hs, hlook]
          | some node =>
            have hparent : idTrace m node.parent N = none := by
              have heq : stepParent m s = node.parent := by
                unfold stepParent
                rw [if_neg hs, hlook]
              rwa [heq] at hstep
            have hrec : ∀ a, (collectAux m topic fuel node.parent a).isSome :=
              fun a => ih node.parent hparent fuel (by omega) topic a
            cases hm : node.message with
            | none =>
              simp only [collectAux, if_neg hs, hlook, hm]
              exact hrec acc
            | some msg =>
              cases hc : msg.content with
              | none =>
                simp only [collectAux, if_neg hs, hlook, hm, hc]
                rfl
              | some content =>
                cases hp : content.parts with
                | none =>
                  simp only [collectAux, if_neg hs, hlook, hm, hc, hp]
                  rfl
                | some parts =>
                  simp only [collectAux, if_neg hs, hlook, hm, hc, hp]
                  exact hrec _

/-- C10: under the precondition that the parent links reachable from the start
id form no cycle, every parent-chain walk of the program terminates: with fuel
`m.length + 2` (more than the mapping can sustain iterations without a
repeat), the thread reconstruction, the assistant classification, and the
summarizer's content collection each return a result instead of exhausting
their fuel. -/
theorem claim10_walks_terminate (m : List (String × ConversationNode))
    (cur : Option String) (hnc : NoCycle m cur) :
    ∀ fuel, m.length + 2 ≤ fuel →
      (∀ history, (reconstructAux m fuel cur history).isSome) ∧
      (∀ checked, (getAssistantAux m fuel cur checked).isSome) ∧
      (∀ topic acc, (collectAux m topic fuel cur acc).isSome) := by
  intro fuel hfuel
  have hnone := idTrace_eventually_none hnc
  exact ⟨fun history => reconstructAux_isSome_of_trace_none _ cur hnone fuel hfuel history,
    fun checked => getAssistantAux_isSome_of_trace_none _ cur hnone fuel hfuel checked,
    fun topic acc => collectAux_isSome_of_trace_none _ cur hnone fuel hfuel topic acc⟩

theorem claim10_witness :
    (reconstructAux convTwo.mapping 4 (some "b") []).isSome ∧
    (getAssistantAux convTwo.mapping 4 (some "b") 0).isSome ∧
    (collectAux convTwo.mapping "x" 4 (some "b") "").isSome := by
  have h := claim10_walks_terminate convTwo.mapping (some "b")
    (noCycle_of_idTrace_none 2 (by decide)) 4 (by decide)
  exact ⟨h.1 [], h.2.1 0, h.2.2 "x" ""⟩
